import Mathlib

/-!
Verification of the `openmls-sled-storage` persistence adapter
(`src/lib.rs` and `src/helpers.rs`).

Byte strings are modelled as lists of naturals; a well-formed byte holds a
value below 256.  The sled database is modelled as a total map from
(tree name, key) to optionally stored bytes; backend I/O failures
(`sled::Error`) have no counterpart in the pure model.  The Value Codec of
the source is `serde_json` (an external dependency), used only at the types
`Vec<u8>`, `Vec<Vec<u8>>` and unsigned integers; it is modelled from the
spec as the canonical compact JSON encoding of arrays of decimal integers,
exactly the byte strings `serde_json::to_vec` emits at those types, together
with a decoder for that canonical form (inputs outside the canonical form,
e.g. with interior whitespace, are not modelled precisely).
-/

namespace SledStorage

/-- Byte strings: lists of naturals. -/
abbrev Bytes := List Nat

/-- Every entry of `v` is a genuine byte value (as `Vec<u8>` guarantees in the
source by typing). -/
def validBytes (v : Bytes) : Bool := v.all (fun b => b < 256)

/-- Every element of `l` consists of genuine byte values. -/
def validList (l : List Bytes) : Bool := l.all validBytes

/-- Little-endian decimal digits of `n` (empty for `0`); the fuel argument
bounds the recursion and suffices whenever `n ≤ fuel`. -/
def natDigitsAux : Nat → Nat → List Nat
  | 0, _ => []
  | fuel + 1, n => if n = 0 then [] else n % 10 :: natDigitsAux fuel (n / 10)

/-- ASCII decimal rendering of `n`, as serde_json renders a nonnegative
integer (most significant digit first, no leading zeros, `"0"` for zero). -/
def encNat (n : Nat) : Bytes :=
  if n = 0 then [48] else ((natDigitsAux n n).map (fun d => d + 48)).reverse

/-- Numeric value of a little-endian decimal digit list. -/
def ofDigitsLE : List Nat → Nat
  | [] => 0
  | d :: ds => d + 10 * ofDigitsLE ds

theorem ofDigitsLE_natDigitsAux : ∀ fuel n : Nat, n ≤ fuel →
    ofDigitsLE (natDigitsAux fuel n) = n := by
  intro fuel
  induction fuel with
  | zero =>
    intro n h
    interval_cases n
    simp [natDigitsAux, ofDigitsLE]
  | succ f ih =>
    intro n h
    by_cases h0 : n = 0
    · simp [natDigitsAux, h0, ofDigitsLE]
    · have hdiv : n / 10 ≤ f := by
        have := Nat.div_lt_self (Nat.pos_of_ne_zero h0) (by norm_num : 1 < 10)
        omega
      simp [natDigitsAux, h0, ofDigitsLE, ih _ hdiv]
      omega

theorem natDigitsAux_lt_ten : ∀ fuel n d : Nat, d ∈ natDigitsAux fuel n → d < 10 := by
  intro fuel
  induction fuel with
  | zero => intro n d h; simp [natDigitsAux] at h
  | succ f ih =>
    intro n d h
    by_cases h0 : n = 0
    · simp [natDigitsAux, h0] at h
    · simp [natDigitsAux, h0] at h
      rcases h with h | h
      · omega
      · exact ih _ _ h

theorem natDigitsAux_ne_nil (f n : Nat) (h0 : n ≠ 0) (hf : f ≠ 0) :
    natDigitsAux f n ≠ [] := by
  obtain ⟨f1, rfl⟩ := Nat.exists_eq_succ_of_ne_zero hf
  simp [natDigitsAux, h0]

theorem encNat_ne_nil (n : Nat) : encNat n ≠ [] := by
  unfold encNat
  by_cases h0 : n = 0
  · simp [h0]
  · simp [h0]
    exact natDigitsAux_ne_nil n n h0 h0

theorem encNat_all_digit (n : Nat) : ∀ c ∈ encNat n, 48 ≤ c ∧ c ≤ 57 := by
  intro c hc
  unfold encNat at hc
  by_cases h0 : n = 0
  · simp [h0] at hc
    omega
  · simp [h0] at hc
    obtain ⟨d, hd, rfl⟩ := hc
    have := natDigitsAux_lt_ten n n d hd
    omega

theorem foldl_reverse_digits : ∀ (L : List Nat) (acc : Nat),
    List.foldl (fun a d => a * 10 + d) acc L.reverse =
      acc * 10 ^ L.length + ofDigitsLE L := by
  intro L
  induction L with
  | nil => intro acc; simp [ofDigitsLE]
  | cons d ds ih =>
    intro acc
    simp [List.foldl_append, ih, ofDigitsLE, pow_succ]
    ring

/-- Renders the tail `,x,…]` of a nonempty JSON array (everything after the
first element). -/
def encTail (encItem : α → Bytes) : List α → Bytes
  | [] => [93]
  | x :: xs => 44 :: (encItem x ++ encTail encItem xs)

/-- Canonical compact JSON array of the items, as `serde_json::to_vec` emits
(`91` is the opening and `93` the closing bracket, `44` the comma). -/
def encArr (encItem : α → Bytes) : List α → Bytes
  | [] => [91, 93]
  | x :: xs => 91 :: (encItem x ++ encTail encItem xs)

/-- Modelled from the spec: `serde_json::to_vec` of a `Vec<u8>` (the Value
Codec applied to one blob of value bytes); serde_json is an external
dependency, not part of this repository. -/
def jsonEncode (v : Bytes) : Bytes := encArr encNat v

/-- Modelled from the spec: `serde_json::to_vec` of a `Vec<Vec<u8>>` (the
Value Codec applied to a stored list). -/
def jsonEncodeList (l : List Bytes) : Bytes := encArr jsonEncode l

/-- ASCII decimal digit test. -/
def isDigitByte (c : Nat) : Bool := 48 ≤ c && c ≤ 57

/-- The byte string does not begin with a decimal digit. -/
def headNotDigit : Bytes → Bool
  | [] => true
  | c :: _ => !isDigitByte c

/-- Consumes a maximal run of digits, accumulating their value. -/
def parseNumAux : Bytes → Nat → Nat × Bytes
  | [], acc => (acc, [])
  | c :: rest, acc =>
    if isDigitByte c then parseNumAux rest (acc * 10 + (c - 48)) else (acc, c :: rest)

/-- Parses one nonnegative decimal integer (at least one digit). -/
def parseNum : Bytes → Option (Nat × Bytes)
  | [] => none
  | c :: rest => if isDigitByte c then some (parseNumAux rest (c - 48)) else none

/-- Parses `n (,n)* ]`, the remainder of a nonempty integer array after the
opening bracket; the fuel bounds the number of elements. -/
def parseNumsTail : Nat → Bytes → Option (List Nat × Bytes)
  | 0, _ => none
  | fuel + 1, b =>
    match parseNum b with
    | none => none
    | some (n, rest) =>
      match rest with
      | 93 :: rest1 => some ([n], rest1)
      | 44 :: rest1 =>
        match parseNumsTail fuel rest1 with
        | some (ns, rest2) => some (n :: ns, rest2)
        | none => none
      | _ => none

/-- Parses one JSON array of integers. -/
def parseNatArray (fuel : Nat) (b : Bytes) : Option (List Nat × Bytes) :=
  match b with
  | 91 :: rest =>
    match rest with
    | [] => none
    | c :: rest1 => if c = 93 then some ([], rest1) else parseNumsTail fuel (c :: rest1)
  | _ => none

/-- Parses `a (,a)* ]`, the remainder of a nonempty array of integer arrays. -/
def parseArrsTail : Nat → Bytes → Option (List Bytes × Bytes)
  | 0, _ => none
  | fuel + 1, b =>
    match parseNatArray b.length b with
    | none => none
    | some (v, rest) =>
      match rest with
      | 93 :: rest1 => some ([v], rest1)
      | 44 :: rest1 =>
        match parseArrsTail fuel rest1 with
        | some (vs, rest2) => some (v :: vs, rest2)
        | none => none
      | _ => none

/-- Parses one JSON array of integer arrays. -/
def parseArrArray (fuel : Nat) (b : Bytes) : Option (List Bytes × Bytes) :=
  match b with
  | 91 :: rest =>
    match rest with
    | [] => none
    | c :: rest1 => if c = 93 then some ([], rest1) else parseArrsTail fuel (c :: rest1)
  | _ => none

/-- Modelled from the spec: `serde_json::from_slice::<Vec<u8>>` on the
canonical form; a parsed number above 255 does not fit in a `u8` and is
rejected, as serde rejects it. -/
def jsonDecode (b : Bytes) : Option Bytes :=
  match parseNatArray b.length b with
  | some (ns, []) => if validBytes ns then some ns else none
  | _ => none

/-- Modelled from the spec: `serde_json::from_slice::<Vec<Vec<u8>>>` on the
canonical form. -/
def jsonDecodeList (b : Bytes) : Option (List Bytes) :=
  match parseArrArray b.length b with
  | some (vs, []) => if validList vs then some vs else none
  | _ => none

theorem foldl_digit_chars (B : List Nat) (acc : Nat) :
    List.foldl (fun a c => a * 10 + (c - 48)) acc (B.map (fun d => d + 48)) =
      List.foldl (fun a d => a * 10 + d) acc B := by
  induction B generalizing acc with
  | nil => rfl
  | cons d ds ih => simp [ih]

theorem parseNumAux_spec : ∀ (ds rest : Bytes) (acc : Nat),
    (∀ c ∈ ds, 48 ≤ c ∧ c ≤ 57) → headNotDigit rest = true →
    parseNumAux (ds ++ rest) acc =
      (List.foldl (fun a c => a * 10 + (c - 48)) acc ds, rest) := by
  intro ds
  induction ds with
  | nil =>
    intro rest acc _ hrest
    cases rest with
    | nil => rfl
    | cons c r =>
      simp [headNotDigit] at hrest
      simp [parseNumAux, hrest]
  | cons c cs ih =>
    intro rest acc hds hrest
    have hc := hds c (by simp)
    have hdig : isDigitByte c = true := by
      simp [isDigitByte]
      omega
    simp [parseNumAux, hdig]
    exact ih rest _ (fun x hx => hds x (by simp [hx])) hrest

theorem parseNum_encNat (n : Nat) (rest : Bytes) (hrest : headNotDigit rest = true) :
    parseNum (encNat n ++ rest) = some (n, rest) := by
  by_cases h0 : n = 0
  · subst h0
    have h1 := parseNumAux_spec [] rest 0 (by simp) hrest
    simp at h1
    simp [encNat, parseNum, isDigitByte, h1]
  · have hD : natDigitsAux n n ≠ [] := natDigitsAux_ne_nil n n h0 h0
    have hBne : (natDigitsAux n n).reverse ≠ [] := by simpa using hD
    obtain ⟨c, cs, hcons⟩ := List.exists_cons_of_ne_nil hBne
    have hmemB : ∀ d ∈ (natDigitsAux n n).reverse, d < 10 := by
      intro d hd
      exact natDigitsAux_lt_ten n n d (by simpa using hd)
    have hcB : c < 10 := hmemB c (by simp [hcons])
    have henc : encNat n = (c + 48) :: cs.map (fun d => d + 48) := by
      simp [encNat, h0, ← List.map_reverse, hcons]
    rw [henc]
    have hdig : isDigitByte (c + 48) = true := by
      simp [isDigitByte]
      omega
    have hall : ∀ x ∈ cs.map (fun d => d + 48), 48 ≤ x ∧ x ≤ 57 := by
      intro x hx
      simp at hx
      obtain ⟨d, hd, rfl⟩ := hx
      have : d < 10 := hmemB d (by simp [hcons, hd])
      omega
    have hval : List.foldl (fun a d => a * 10 + d) c cs = n := by
      have h1 : List.foldl (fun a d => a * 10 + d) 0 ((natDigitsAux n n).reverse) = n := by
        rw [foldl_reverse_digits]
        simpa using ofDigitsLE_natDigitsAux n n le_rfl
      rw [hcons] at h1
      simpa using h1
    simp [parseNum, hdig, parseNumAux_spec _ rest _ hall hrest, foldl_digit_chars, hval]

theorem headNotDigit_encTail (encItem : α → Bytes) (xs : List α) (rest : Bytes) :
    headNotDigit (encTail encItem xs ++ rest) = true := by
  cases xs <;> simp [encTail, headNotDigit, isDigitByte]

theorem parseNumsTail_enc : ∀ (xs : List Nat) (x : Nat) (rest : Bytes) (fuel : Nat),
    xs.length < fuel →
    parseNumsTail fuel (encNat x ++ (encTail encNat xs ++ rest)) = some (x :: xs, rest) := by
  intro xs
  induction xs with
  | nil =>
    intro x rest fuel hf
    obtain ⟨f, rfl⟩ := Nat.exists_eq_succ_of_ne_zero (by omega : fuel ≠ 0)
    have h1 : parseNum (encNat x ++ (encTail encNat ([] : List Nat) ++ rest)) =
        some (x, 93 :: rest) :=
      parseNum_encNat x _ (headNotDigit_encTail _ _ _)
    simp only [encTail, List.singleton_append] at h1 ⊢
    simp [parseNumsTail, h1]
  | cons y ys ih =>
    intro x rest fuel hf
    obtain ⟨f, rfl⟩ := Nat.exists_eq_succ_of_ne_zero (by omega : fuel ≠ 0)
    have h1 : parseNum (encNat x ++ (encTail encNat (y :: ys) ++ rest)) =
        some (x, 44 :: (encNat y ++ (encTail encNat ys ++ rest))) := by
      have h2 := parseNum_encNat x (encTail encNat (y :: ys) ++ rest)
        (headNotDigit_encTail _ _ _)
      simpa [encTail, List.append_assoc] using h2
    have h3 := ih y rest f (by simp at hf; omega)
    simp [parseNumsTail, h1, h3]

theorem parseNatArray_enc : ∀ (v rest : Bytes) (fuel : Nat), v.length < fuel →
    parseNatArray fuel (jsonEncode v ++ rest) = some (v, rest) := by
  intro v rest fuel hf
  cases v with
  | nil => simp [jsonEncode, encArr, parseNatArray]
  | cons x xs =>
    obtain ⟨c, cs, hcons⟩ := List.exists_cons_of_ne_nil (encNat_ne_nil x)
    have hc : c ≤ 57 := (encNat_all_digit x c (by simp [hcons])).2
    have harr : jsonEncode (x :: xs) ++ rest =
        91 :: (c :: (cs ++ (encTail encNat xs ++ rest))) := by
      simp [jsonEncode, encArr, hcons]
    have hne : ¬(c = 93) := by omega
    have htail : parseNumsTail fuel (c :: (cs ++ (encTail encNat xs ++ rest))) =
        some (x :: xs, rest) := by
      have h2 := parseNumsTail_enc xs x rest fuel (by simp at hf; omega)
      rw [hcons] at h2
      simpa using h2
    rw [harr]
    simp [parseNatArray, hne, htail]

theorem one_le_encNat_length (n : Nat) : 1 ≤ (encNat n).length := by
  have := encNat_ne_nil n
  exact List.length_pos.mpr this

theorem encTail_length (encItem : α → Bytes) : ∀ xs : List α,
    xs.length + 1 ≤ (encTail encItem xs).length := by
  intro xs
  induction xs with
  | nil => simp [encTail]
  | cons y ys ih =>
    simp [encTail]
    omega

theorem length_lt_jsonEncode (v : Bytes) : v.length < (jsonEncode v).length := by
  cases v with
  | nil => simp [jsonEncode, encArr]
  | cons x xs =>
    have h1 := one_le_encNat_length x
    have h2 := encTail_length encNat xs
    simp [jsonEncode, encArr]
    omega

theorem jsonDecode_jsonEncode (v : Bytes) (hv : validBytes v = true) :
    jsonDecode (jsonEncode v) = some v := by
  have h := parseNatArray_enc v [] (jsonEncode v).length (length_lt_jsonEncode v)
  simp at h
  simp [jsonDecode, h, hv]

theorem jsonEncode_cons (v : Bytes) : ∃ t, jsonEncode v = 91 :: t := by
  cases v with
  | nil => exact ⟨[93], rfl⟩
  | cons x xs => exact ⟨_, rfl⟩

theorem one_le_jsonEncode_length (v : Bytes) : 1 ≤ (jsonEncode v).length := by
  obtain ⟨t, ht⟩ := jsonEncode_cons v
  simp [ht]

theorem parseArrsTail_enc : ∀ (xs : List Bytes) (x : Bytes) (rest : Bytes) (fuel : Nat),
    xs.length < fuel →
    parseArrsTail fuel (jsonEncode x ++ (encTail jsonEncode xs ++ rest)) =
      some (x :: xs, rest) := by
  intro xs
  induction xs with
  | nil =>
    intro x rest fuel hf
    obtain ⟨f, rfl⟩ := Nat.exists_eq_succ_of_ne_zero (by omega : fuel ≠ 0)
    have h1 : parseNatArray (jsonEncode x ++ (93 :: rest)).length
        (jsonEncode x ++ (93 :: rest)) = some (x, 93 :: rest) :=
      parseNatArray_enc x (93 :: rest) _ (by
        have := length_lt_jsonEncode x
        simp
        omega)
    simp only [List.length_append, List.length_cons] at h1
    simp only [encTail, List.singleton_append]
    simp [parseArrsTail, h1]
  | cons y ys ih =>
    intro x rest fuel hf
    obtain ⟨f, rfl⟩ := Nat.exists_eq_succ_of_ne_zero (by omega : fuel ≠ 0)
    have hassoc : jsonEncode x ++ (encTail jsonEncode (y :: ys) ++ rest) =
        jsonEncode x ++ (44 :: (jsonEncode y ++ (encTail jsonEncode ys ++ rest))) := by
      simp [encTail]
    have h1 : parseNatArray
        (jsonEncode x ++ (44 :: (jsonEncode y ++ (encTail jsonEncode ys ++ rest)))).length
        (jsonEncode x ++ (44 :: (jsonEncode y ++ (encTail jsonEncode ys ++ rest)))) =
        some (x, 44 :: (jsonEncode y ++ (encTail jsonEncode ys ++ rest))) :=
      parseNatArray_enc x _ _ (by
        have := length_lt_jsonEncode x
        simp
        omega)
    have h3 := ih y rest f (by simp at hf; omega)
    simp only [List.length_append, List.length_cons] at h1
    rw [hassoc]
    simp [parseArrsTail, h1, h3]

theorem parseArrArray_enc : ∀ (l : List Bytes) (rest : Bytes) (fuel : Nat),
    l.length < fuel →
    parseArrArray fuel (jsonEncodeList l ++ rest) = some (l, rest) := by
  intro l rest fuel hf
  cases l with
  | nil => simp [jsonEncodeList, encArr, parseArrArray]
  | cons x xs =>
    obtain ⟨t, ht⟩ := jsonEncode_cons x
    have harr : jsonEncodeList (x :: xs) ++ rest =
        91 :: (91 :: (t ++ (encTail jsonEncode xs ++ rest))) := by
      simp [jsonEncodeList, encArr, ht]
    have hne : ¬(91 = 93) := by omega
    have htail : parseArrsTail fuel (91 :: (t ++ (encTail jsonEncode xs ++ rest))) =
        some (x :: xs, rest) := by
      have h2 := parseArrsTail_enc xs x rest fuel (by simp at hf; omega)
      rw [ht] at h2
      simpa using h2
    rw [harr]
    simp [parseArrArray, hne, htail]

theorem length_lt_jsonEncodeList (l : List Bytes) :
    l.length < (jsonEncodeList l).length := by
  cases l with
  | nil => simp [jsonEncodeList, encArr]
  | cons x xs =>
    have h1 := one_le_jsonEncode_length x
    have h2 := encTail_length jsonEncode xs
    simp [jsonEncodeList, encArr]
    omega

theorem jsonDecodeList_jsonEncodeList (l : List Bytes) (hl : validList l = true) :
    jsonDecodeList (jsonEncodeList l) = some l := by
  have h := parseArrArray_enc l [] (jsonEncodeList l).length (length_lt_jsonEncodeList l)
  simp at h
  simp [jsonDecodeList, h, hl]

/-- The sled database: a total map from (tree name, key) to optionally
stored bytes.  Trees (namespaces) are created lazily and keys in different
trees never collide, which the two-argument map captures. -/
abbrev Store := Bytes → Bytes → Option Bytes

/-- A store with nothing in it. -/
def emptyStore : Store := fun _ _ => none

/-- Models `tree.insert(key, v)`: overwrites the entry at `(tree, key)`. -/
def insertS (s : Store) (tree key v : Bytes) : Store :=
  fun t k => if t = tree then (if k = key then some v else s t k) else s t k

/-- Models `tree.remove(key)`. -/
def eraseS (s : Store) (tree key : Bytes) : Store :=
  fun t k => if t = tree then (if k = key then none else s t k) else s t k

/-- Errors of the key store (src/lib.rs 13-21).  `SledError` (a backend I/O
failure) has no counterpart in the pure model; `serde_json::Error` converts
to `SerializationError` via the `From` impl (src/lib.rs 23-27). -/
inductive SledStorageError where
  | SerializationError : SledStorageError
  | NoValue : SledStorageError
deriving DecidableEq

/-- Models `values.iter().map(serde_json::from_slice).collect::<Result<..>>`:
decodes every element, failing on the first failure with no partial result. -/
def collectDec (decV : Bytes → Option V) : List Bytes → Option (List V)
  | [] => some []
  | b :: bs =>
    match decV b with
    | none => none
    | some v =>
      match collectDec decV bs with
      | none => none
      | some vs => some (v :: vs)

/-- Models `SledStorage::write` (src/lib.rs 124-142): serializes the already
encoded value bytes once more via the codec and inserts, overwriting any
previous entry.  `serde_json::to_vec` of a `Vec<u8>` always succeeds, so the
`map_err` on it is dead; backend insert errors are outside the pure model. -/
def write (s : Store) (tree key value : Bytes) : Except SledStorageError Unit × Store :=
  (Except.ok (), insertS s tree key (jsonEncode value))

/-- Models `SledStorage::append` (src/lib.rs 159-185): reads the stored list
bytes (an absent key stands for the empty list), decodes them, pushes the new
element and writes the whole list back; a decode failure surfaces as
`SerializationError` before any insert happens. -/
def append (s : Store) (tree key value : Bytes) : Except SledStorageError Unit × Store :=
  match s tree key with
  | none => (Except.ok (), insertS s tree key (jsonEncodeList [value]))
  | some list_bytes =>
    match jsonDecodeList list_bytes with
    | none => (Except.error SledStorageError.SerializationError, s)
    | some l => (Except.ok (), insertS s tree key (jsonEncodeList (l ++ [value])))

/-- Models `SledStorage::read` (src/lib.rs 203-220): an absent key yields
`none` successfully; a present entry is decoded through the outer wrapper and
then into the entity type `V` by its (abstract) deserializer `decV`. -/
def read (s : Store) (tree key : Bytes) (decV : Bytes → Option V) :
    Except SledStorageError (Option V) :=
  match s tree key with
  | none => Except.ok none
  | some value =>
    match jsonDecode value with
    | none => Except.error SledStorageError.SerializationError
    | some deserialized =>
      match decV deserialized with
      | none => Except.error SledStorageError.SerializationError
      | some v => Except.ok (some v)

/-- Models `SledStorage::read_list` (src/lib.rs 238-258): an absent key yields
the empty list successfully; otherwise the stored collection is decoded and
every element deserialized into `V`, any failure failing the whole call. -/
def read_list (s : Store) (tree key : Bytes) (decV : Bytes → Option V) :
    Except SledStorageError (List V) :=
  match s tree key with
  | none => Except.ok []
  | some list_bytes =>
    match jsonDecodeList list_bytes with
    | none => Except.error SledStorageError.SerializationError
    | some value =>
      match collectDec decV value with
      | none => Except.error SledStorageError.SerializationError
      | some vs => Except.ok vs

/-- Removes the first element equal to `v` (byte-for-byte), mirroring the
`position` + `remove(pos)` pair in the source. -/
def removeFirst : List Bytes → Bytes → List Bytes
  | [], _ => []
  | x :: xs, v => if x = v then xs else x :: removeFirst xs v

/-- Models `SledStorage::remove_item` (src/lib.rs 275-309): an absent key is
an immediate no-op success; otherwise the stored list is decoded, the first
byte-exact match (if any) removed, and the list written back. -/
def remove_item (s : Store) (tree key value : Bytes) :
    Except SledStorageError Unit × Store :=
  match s tree key with
  | none => (Except.ok (), s)
  | some list =>
    match jsonDecodeList list with
    | none => (Except.error SledStorageError.SerializationError, s)
    | some parsed_list =>
      (Except.ok (), insertS s tree key (jsonEncodeList (removeFirst parsed_list value)))

/-- Models `SledStorage::delete` (src/lib.rs 326-339). -/
def delete (s : Store) (tree key : Bytes) : Except SledStorageError Unit × Store :=
  (Except.ok (), eraseS s tree key)

/-- Models `SledStorage::delete_all_data` (src/lib.rs 89-106): every tree ever
created is opened and cleared, then the main database is cleared and flushed;
the observable net effect on the map is the empty store.  The durability
flush has no observable effect in the pure model. -/
def delete_all_data (_s : Store) : Except SledStorageError Unit × Store :=
  (Except.ok (), emptyStore)

/-- Iterates `append` over a list of element byte strings, stopping at the
first error, as a caller performing sequential appends would. -/
def appendAll : Store → Bytes → Bytes → List Bytes → Except SledStorageError Unit × Store
  | s, _, _, [] => (Except.ok (), s)
  | s, tree, key, e :: es =>
    match append s tree key e with
    | (Except.ok _, s1) => appendAll s1 tree key es
    | (Except.error err, s1) => (Except.error err, s1)

theorem insertS_same (s : Store) (tree key v : Bytes) :
    insertS s tree key v tree key = some v := by
  simp [insertS]

theorem insertS_self (s : Store) (tree key v : Bytes) (h : s tree key = some v) :
    insertS s tree key v = s := by
  funext t k
  unfold insertS
  by_cases ht : t = tree
  · by_cases hk : k = key
    · subst ht
      subst hk
      simp [h]
    · simp [ht, hk]
  · simp [ht]

theorem removeFirst_of_not_mem : ∀ (l : List Bytes) (v : Bytes), v ∉ l →
    removeFirst l v = l := by
  intro l v
  induction l with
  | nil => intro _; rfl
  | cons x xs ih =>
    intro h
    simp at h
    have hx : ¬(x = v) := fun he => h.1 he.symm
    simp [removeFirst, hx, ih h.2]

theorem removeFirst_append (l1 l2 : List Bytes) (v : Bytes) (h : v ∉ l1) :
    removeFirst (l1 ++ v :: l2) v = l1 ++ l2 := by
  induction l1 with
  | nil => simp [removeFirst]
  | cons x xs ih =>
    simp at h
    have hx : ¬(x = v) := fun he => h.1 he.symm
    simp [removeFirst, hx]
    exact ih h.2

theorem collectDec_forall₂ (decV : Bytes → Option V) :
    ∀ (es : List Bytes) (vs : List V),
    List.Forall₂ (fun e x => decV e = some x) es vs → collectDec decV es = some vs := by
  intro es
  induction es with
  | nil =>
    intro vs h
    cases h
    rfl
  | cons e es ih =>
    intro vs h
    cases h with
    | cons hd htl => simp [collectDec, hd, ih _ htl]

theorem collectDec_none (decV : Bytes → Option V) :
    ∀ (es : List Bytes) (x : Bytes), x ∈ es → decV x = none →
    collectDec decV es = none := by
  intro es
  induction es with
  | nil => intro x hx; simp at hx
  | cons e es ih =>
    intro x hx hdec
    rcases List.mem_cons.mp hx with rfl | hmem
    · simp [collectDec, hdec]
    · unfold collectDec
      cases hde : decV e with
      | none => rfl
      | some v => simp [ih x hmem hdec]

/-- Big-endian bytes of a 16-bit value, as `u16::to_be_bytes`; the source
version is typed `u16`, which the reductions modulo 256 reflect. -/
def beBytes16 (v : Nat) : Bytes := [v / 256 % 256, v % 256]

/-- Models `build_key_from_vec` (src/helpers.rs 18-23): label bytes, then the
key bytes, then the 2-byte big-endian version. -/
def build_key_from_vec (version : Nat) (label key : Bytes) : Bytes :=
  label ++ key ++ beBytes16 version

/-- Models `build_key` (src/helpers.rs 38-40): serializes the generic key
with `serde_json::to_vec(&key).unwrap()` and delegates to
`build_key_from_vec`.  The serializer of the generic `K : Serialize` is kept
abstract (`serK`, with `none` standing for a serialization failure), and the
`.unwrap()` turns that failure into a process panic, so the model's result is
an `Option` with `none` standing for the panic outcome — the source signature
returns a plain `Vec<u8>` and has no error channel. -/
def build_key (version : Nat) (serK : K → Option Bytes) (label : Bytes) (k : K) :
    Option Bytes :=
  (serK k).map (fun kb => build_key_from_vec version label kb)

/-- Models `epoch_key_pairs_id` (src/helpers.rs 55-64): concatenates the
serialized group id, epoch, and leaf index, each serialization failure
propagating with `?`.  The group id and epoch are opaque trait types with
abstract fallible serializers; the leaf index is a `u32`, which serde_json
renders as its decimal digits and can never fail to serialize. -/
def epoch_key_pairs_id (serG : G → Option Bytes) (serE : E → Option Bytes)
    (group_id : G) (epoch : E) (leaf_index : Nat) : Except SledStorageError Bytes :=
  match serG group_id with
  | none => Except.error SledStorageError.SerializationError
  | some kg =>
    match serE epoch with
    | none => Except.error SledStorageError.SerializationError
    | some ke => Except.ok (kg ++ (ke ++ encNat leaf_index))

theorem validList_append (l1 l2 : List Bytes) :
    validList (l1 ++ l2) = (validList l1 && validList l2) := by
  simp [validList, List.all_append]

theorem appendAll_from (tree key : Bytes) :
    ∀ (es : List Bytes) (s : Store) (l : List Bytes),
    validList l = true → validList es = true →
    s tree key = some (jsonEncodeList l) →
    ∃ s1, appendAll s tree key es = (Except.ok (), s1) ∧
      s1 tree key = some (jsonEncodeList (l ++ es)) := by
  intro es
  induction es with
  | nil =>
    intro s l _ _ hs
    exact ⟨s, rfl, by simpa using hs⟩
  | cons e es ih =>
    intro s l hl hes hs
    have he : validBytes e = true := by
      simp [validList] at hes
      exact hes.1
    have hes2 : validList es = true := by
      simp [validList] at hes ⊢
      exact hes.2
    have happ : append s tree key e =
        (Except.ok (), insertS s tree key (jsonEncodeList (l ++ [e]))) := by
      simp [append, hs, jsonDecodeList_jsonEncodeList l hl]
    have hl1 : validList (l ++ [e]) = true := by
      rw [validList_append, hl]
      simp [validList, he]
    obtain ⟨s1, h1, h2⟩ := ih (insertS s tree key (jsonEncodeList (l ++ [e]))) (l ++ [e])
      hl1 hes2 (insertS_same s tree key _)
    refine ⟨s1, ?_, ?_⟩
    · simp [appendAll, happ, h1]
    · simpa [List.append_assoc] using h2

/-- C1 counterexample: a serializable key whose serializer fails makes
`build_key` hit the `.unwrap()` on the failed serialization — the panic
outcome, modelled `none` — instead of returning an `EncodeError` result.
This refutes the claim that the serialization failure propagates as an error
result to the caller and never causes a panic. -/
theorem c1_counterexample :
    (build_key 1 (fun _ : Unit => (none : Option Bytes)) [116] ()).isSome = false := rfl

/-- C1 (amended): for every label and serializable key, `build_key` returns
the key `label ++ serialized key ++ big-endian version` when the key
serializes; when serialization fails it panics (`.unwrap()`), it does not
return an `EncodeError` — the source signature has no error channel. -/
theorem c1_build_key (version : Nat) (serK : K → Option Bytes) (label : Bytes) (k : K) :
    (∀ kb, serK k = some kb →
      build_key version serK label k = some (build_key_from_vec version label kb)) ∧
    (serK k = none → build_key version serK label k = none) := by
  constructor
  · intro kb h
    simp [build_key, h]
  · intro h
    simp [build_key, h]

/-- C1 witness: a key serializing to `[5]` under label `[2]` builds the
expected key. -/
theorem c1_build_key_witness :
    build_key 1 (fun _ : Unit => some [5]) [2] () = some (build_key_from_vec 1 [2] [5]) :=
  (c1_build_key 1 (fun _ : Unit => some [5]) [2] ()).1 [5] rfl

/-- C2: `write` succeeds, stores the value bytes wrapped in exactly one
additional outer encoding — overwriting whatever the arbitrary prior store
`s` held at that key (last-write-wins) — and a subsequent `read` of the same
tree and key reverses both encoding layers, returning `some` of the original
entity `e` whose encoding the value bytes `v` are. -/
theorem c2_write_read_roundtrip (s : Store) (tree key v : Bytes)
    (decV : Bytes → Option V) (e : V) (hv : validBytes v = true)
    (hdec : decV v = some e) :
    (write s tree key v).1 = Except.ok () ∧
    (write s tree key v).2 tree key = some (jsonEncode v) ∧
    read (write s tree key v).2 tree key decV = Except.ok (some e) := by
  refine ⟨rfl, insertS_same s tree key _, ?_⟩
  simp [write, read, insertS_same, jsonDecode_jsonEncode v hv, hdec]

/-- C2 witness: writing the bytes `[7, 0]` over a prior entry and reading
them back with the identity entity decoder round-trips. -/
theorem c2_write_read_roundtrip_witness :
    read (write (insertS emptyStore [1] [2] [9]) [1] [2] [7, 0]).2 [1] [2]
      (fun b => some b) = Except.ok (some [7, 0]) :=
  (c2_write_read_roundtrip (insertS emptyStore [1] [2] [9]) [1] [2] [7, 0]
    (fun b => some b) [7, 0] (by decide) rfl).2.2

/-- C5: on a key holding no value, `read` succeeds with no value, `read_list`
succeeds with the empty sequence, and `remove_item` succeeds as a no-op
leaving the store untouched; a key removed by `delete` holds no value, so the
same applies to a deleted key.  A missing key is never a `NoValue` error. -/
theorem c5_absent_key_soft (s : Store) (tree key v : Bytes) (decV : Bytes → Option V)
    (h : s tree key = none) :
    read s tree key decV = Except.ok none ∧
    read_list s tree key decV = Except.ok [] ∧
    remove_item s tree key v = (Except.ok (), s) ∧
    (∀ s1 : Store, (delete s1 tree key).2 tree key = none) := by
  refine ⟨?_, ?_, ?_, ?_⟩
  · simp [read, h]
  · simp [read_list, h]
  · simp [remove_item, h]
  · intro s1
    simp [delete, eraseS]

/-- C5 witness: the empty store at a concrete tree and key. -/
theorem c5_absent_key_soft_witness :
    read emptyStore [1] [2] (fun b => some b) = Except.ok none ∧
    read_list emptyStore [1] [2] (fun b => some b) = Except.ok [] ∧
    remove_item emptyStore [1] [2] [3] = (Except.ok (), emptyStore) :=
  have h := c5_absent_key_soft emptyStore [1] [2] [3] (fun b => some b) rfl
  ⟨h.1, h.2.1, h.2.2.1⟩

/-- C6: after any writes whatsoever (the prior store `s` is arbitrary),
`delete_all_data` succeeds — in particular on an empty store — and every
subsequent `read` returns no value and every `read_list` returns the empty
sequence, at every tree and key. -/
theorem c6_delete_all_clears (s : Store) (tree key : Bytes) (decV : Bytes → Option V) :
    (delete_all_data s).1 = Except.ok () ∧
    read (delete_all_data s).2 tree key decV = Except.ok none ∧
    read_list (delete_all_data s).2 tree key decV = Except.ok [] := by
  refine ⟨rfl, ?_, ?_⟩ <;> simp [delete_all_data, read, read_list, emptyStore]

/-- C7: `build_key_from_vec` is a pure function equal to the concatenation
`label ++ key ++ big-endian-u16 version`; its output length is
`label.length + key.length + 2` and it has no failure mode (it is total). -/
theorem c7_build_key_from_vec (version : Nat) (label key : Bytes) :
    build_key_from_vec version label key = label ++ key ++ beBytes16 version ∧
    (build_key_from_vec version label key).length = label.length + key.length + 2 := by
  constructor
  · rfl
  · simp [build_key_from_vec, beBytes16]
    omega

/-- C3: starting from a key with no prior list, sequential `append` calls
with element bytes `e1..eN` all succeed and `read_list` then returns exactly
the `N` decoded elements in insertion order (`vs` related to `es` pointwise
by the entity decoder); and if any single element of a stored list fails to
decode, `read_list` fails the whole call with a decode error, returning no
partial results. -/
theorem c3_append_read_list (decV : Bytes → Option V) (tree key : Bytes) :
    (∀ (s : Store) (es : List Bytes) (vs : List V),
      s tree key = none → validList es = true →
      List.Forall₂ (fun e x => decV e = some x) es vs →
      ∃ s1, appendAll s tree key es = (Except.ok (), s1) ∧
        read_list s1 tree key decV = Except.ok vs) ∧
    (∀ (s : Store) (l : List Bytes) (x : Bytes),
      s tree key = some (jsonEncodeList l) → validList l = true →
      x ∈ l → decV x = none →
      read_list s tree key decV = Except.error SledStorageError.SerializationError) := by
  constructor
  · intro s es vs hnone hes hval
    cases es with
    | nil =>
      cases hval
      exact ⟨s, rfl, by simp [read_list, hnone]⟩
    | cons e es1 =>
      have he : validBytes e = true := by
        simp [validList] at hes
        exact hes.1
      have hes1 : validList es1 = true := by
        simp [validList] at hes ⊢
        exact hes.2
      have happ : append s tree key e =
          (Except.ok (), insertS s tree key (jsonEncodeList [e])) := by
        simp [append, hnone]
      have hl1 : validList [e] = true := by simp [validList, he]
      obtain ⟨s1, h1, h2⟩ := appendAll_from tree key es1
        (insertS s tree key (jsonEncodeList [e])) [e] hl1 hes1 (insertS_same s tree key _)
      refine ⟨s1, ?_, ?_⟩
      · simp [appendAll, happ, h1]
      · have hcd := collectDec_forall₂ decV (e :: es1) vs hval
        simp at h2
        simp [read_list, h2, jsonDecodeList_jsonEncodeList _ hes, hcd]
  · intro s l x hs hl hmem hdec
    simp [read_list, hs, jsonDecodeList_jsonEncodeList l hl,
      collectDec_none decV l x hmem hdec]

/-- C3 witness: appending `[3]` then `[4]` to an empty key reads back as
exactly those two elements in order; a stored list with an element the entity
decoder rejects makes `read_list` fail whole. -/
theorem c3_append_read_list_witness :
    (∃ s1, appendAll emptyStore [1] [2] [[3], [4]] = (Except.ok (), s1) ∧
      read_list s1 [1] [2] (fun b => some b) = Except.ok [[3], [4]]) ∧
    read_list (insertS emptyStore [1] [2] (jsonEncodeList [[3]])) [1] [2]
      (fun _ => (none : Option Bytes)) =
      Except.error SledStorageError.SerializationError := by
  constructor
  · exact (c3_append_read_list (fun b => some b) [1] [2]).1 emptyStore [[3], [4]] [[3], [4]]
      rfl (by decide)
      (List.Forall₂.cons rfl (List.Forall₂.cons rfl List.Forall₂.nil))
  · exact (c3_append_read_list (fun _ => (none : Option Bytes)) [1] [2]).2
      (insertS emptyStore [1] [2] (jsonEncodeList [[3]])) [[3]] [3]
      (insertS_same emptyStore [1] [2] _) (by decide) (by simp) rfl

/-- C4: `remove_item` on a stored list `l1 ++ v :: l2` with no match in `l1`
removes exactly the first byte-for-byte match of `v`, writing back
`l1 ++ l2` with every other element and their order unchanged — with two
byte-identical elements equal to `v` (take `v ∈ l2`) exactly one is removed;
and when no element matches, the call succeeds and the store is left exactly
as it was (the no-op making removal idempotent). -/
theorem c4_remove_item_first_match (tree key v : Bytes) :
    (∀ (s : Store) (l1 l2 : List Bytes),
      s tree key = some (jsonEncodeList (l1 ++ v :: l2)) →
      validList (l1 ++ v :: l2) = true → v ∉ l1 →
      remove_item s tree key v =
        (Except.ok (), insertS s tree key (jsonEncodeList (l1 ++ l2)))) ∧
    (∀ (s : Store) (l : List Bytes),
      s tree key = some (jsonEncodeList l) → validList l = true → v ∉ l →
      remove_item s tree key v = (Except.ok (), s)) := by
  constructor
  · intro s l1 l2 hs hval hnm
    simp [remove_item, hs, jsonDecodeList_jsonEncodeList _ hval,
      removeFirst_append l1 l2 v hnm]
  · intro s l hs hval hnm
    have h1 : removeFirst l v = l := removeFirst_of_not_mem l v hnm
    have h2 : insertS s tree key (jsonEncodeList l) = s := insertS_self s tree key _ hs
    simp [remove_item, hs, jsonDecodeList_jsonEncodeList _ hval, h1, h2]

/-- C4 witness: removing `[3]` from the stored duplicate list `[[3], [3]]`
removes exactly one occurrence; removing it from `[[4]]` is a no-op. -/
theorem c4_remove_item_first_match_witness :
    remove_item (insertS emptyStore [1] [2] (jsonEncodeList [[3], [3]])) [1] [2] [3] =
      (Except.ok (), insertS (insertS emptyStore [1] [2] (jsonEncodeList [[3], [3]]))
        [1] [2] (jsonEncodeList [[3]])) ∧
    remove_item (insertS emptyStore [1] [2] (jsonEncodeList [[4]])) [1] [2] [3] =
      (Except.ok (), insertS emptyStore [1] [2] (jsonEncodeList [[4]])) := by
  constructor
  · exact (c4_remove_item_first_match [1] [2] [3]).1 _ [] [[3]]
      (insertS_same emptyStore [1] [2] _) (by decide) (by simp)
  · exact (c4_remove_item_first_match [1] [2] [3]).2 _ [[4]]
      (insertS_same emptyStore [1] [2] _) (by decide) (by decide)

theorem beBytes16_inj (v1 v2 : Nat) (h1 : v1 < 65536) (h2 : v2 < 65536)
    (h : beBytes16 v1 = beBytes16 v2) : v1 = v2 := by
  simp [beBytes16] at h
  omega

theorem build_key_from_vec_inj (v1 v2 : Nat) (label k1 k2 : Bytes)
    (h1 : v1 < 65536) (h2 : v2 < 65536)
    (heq : build_key_from_vec v1 label k1 = build_key_from_vec v2 label k2) :
    k1 = k2 ∧ v1 = v2 := by
  simp only [build_key_from_vec, List.append_assoc] at heq
  have heq2 : k1 ++ beBytes16 v1 = k2 ++ beBytes16 v2 := List.append_cancel_left heq
  have hlen : (beBytes16 v1).length = (beBytes16 v2).length := rfl
  obtain ⟨hk, hbe⟩ := List.append_inj' heq2 hlen
  exact ⟨hk, beBytes16_inj v1 v2 h1 h2 hbe⟩

theorem build_key_from_vec_take (v : Nat) (label key : Bytes) :
    (build_key_from_vec v label key).take (label.length + key.length) = label ++ key := by
  have hb : build_key_from_vec v label key = (label ++ key) ++ beBytes16 v := by
    simp [build_key_from_vec]
  rw [hb, ← List.length_append label key, List.take_left]

/-- C8: the last two bytes of a built key equal the big-endian encoding of
the version; keys built with identical label and key bytes but different
(16-bit) versions are distinct and coincide on everything before those last
two bytes; and for a fixed label the builder is injective in the
(key bytes, version) pair. -/
theorem c8_version_tagging :
    (∀ (version : Nat) (label key : Bytes),
      (build_key_from_vec version label key).drop (label.length + key.length) =
        beBytes16 version) ∧
    (∀ (v1 v2 : Nat) (label key : Bytes), v1 < 65536 → v2 < 65536 → v1 ≠ v2 →
      build_key_from_vec v1 label key ≠ build_key_from_vec v2 label key ∧
      (build_key_from_vec v1 label key).take (label.length + key.length) =
        (build_key_from_vec v2 label key).take (label.length + key.length)) ∧
    (∀ (v1 v2 : Nat) (label k1 k2 : Bytes), v1 < 65536 → v2 < 65536 →
      build_key_from_vec v1 label k1 = build_key_from_vec v2 label k2 →
      k1 = k2 ∧ v1 = v2) := by
  refine ⟨?_, ?_, ?_⟩
  · intro version label key
    have hb : build_key_from_vec version label key =
        (label ++ key) ++ beBytes16 version := by
      simp [build_key_from_vec]
    rw [hb, ← List.length_append label key, List.drop_left]
  · intro v1 v2 label key h1 h2 hne
    constructor
    · intro heq
      exact hne (build_key_from_vec_inj v1 v2 label key key h1 h2 heq).2
    · rw [build_key_from_vec_take, build_key_from_vec_take]
  · intro v1 v2 label k1 k2 h1 h2 heq
    exact build_key_from_vec_inj v1 v2 label k1 k2 h1 h2 heq

/-- C8 witness: versions 1 and 2 with identical label and key give distinct
keys agreeing before the version suffix. -/
theorem c8_version_tagging_witness :
    build_key_from_vec 1 [7] [8] ≠ build_key_from_vec 2 [7] [8] ∧
    (build_key_from_vec 1 [7] [8]).take 2 = (build_key_from_vec 2 [7] [8]).take 2 :=
  ⟨(c8_version_tagging.2.1 1 2 [7] [8] (by decide) (by decide) (by decide)).1,
   (c8_version_tagging.2.1 1 2 [7] [8] (by decide) (by decide) (by decide)).2⟩

/-- C9: the compound identifier equals the serialized group id, then the
serialized epoch, then the serialized leaf index, concatenated in that fixed
order with no label, version suffix, or delimiters; and a serialization
failure of a component propagates as an `EncodeError` result (the `u32` leaf
index, rendered as its decimal digits, cannot fail to serialize). -/
theorem c9_epoch_key_pairs_id (serG : G → Option Bytes) (serE : E → Option Bytes)
    (g : G) (e : E) (leaf : Nat) :
    (∀ kg ke, serG g = some kg → serE e = some ke →
      epoch_key_pairs_id serG serE g e leaf = Except.ok (kg ++ (ke ++ encNat leaf))) ∧
    (serG g = none → epoch_key_pairs_id serG serE g e leaf =
      Except.error SledStorageError.SerializationError) ∧
    (∀ kg, serG g = some kg → serE e = none →
      epoch_key_pairs_id serG serE g e leaf =
        Except.error SledStorageError.SerializationError) := by
  refine ⟨?_, ?_, ?_⟩
  · intro kg ke hg he2
    simp [epoch_key_pairs_id, hg, he2]
  · intro hg
    simp [epoch_key_pairs_id, hg]
  · intro kg hg he2
    simp [epoch_key_pairs_id, hg, he2]

/-- C9 witness: concrete serializers produce the concatenation, and a failing
epoch serializer produces the error. -/
theorem c9_epoch_key_pairs_id_witness :
    epoch_key_pairs_id (fun _ : Unit => some [1]) (fun _ : Unit => some [2]) () () 3 =
      Except.ok ([1] ++ ([2] ++ encNat 3)) ∧
    epoch_key_pairs_id (fun _ : Unit => some [1]) (fun _ : Unit => (none : Option Bytes))
      () () 3 = Except.error SledStorageError.SerializationError :=
  ⟨(c9_epoch_key_pairs_id (fun _ : Unit => some [1]) (fun _ : Unit => some [2])
      () () 3).1 [1] [2] rfl rfl,
   (c9_epoch_key_pairs_id (fun _ : Unit => some [1]) (fun _ : Unit => (none : Option Bytes))
      () () 3).2.2 [1] rfl rfl⟩

/-- C10: whenever `append` or `remove_item` returns an error (its only pure
failure being that the stored bytes at the key do not decode as an encoded
list), the resulting store is exactly the prior store: the error is returned
before any insert, so no key in any tree is modified by the failed call. -/
theorem c10_error_leaves_store_unchanged :
    (∀ (s : Store) (tree key v : Bytes) (err : SledStorageError) (s1 : Store),
      append s tree key v = (Except.error err, s1) → s1 = s) ∧
    (∀ (s : Store) (tree key v : Bytes) (err : SledStorageError) (s1 : Store),
      remove_item s tree key v = (Except.error err, s1) → s1 = s) := by
  constructor
  · intro s tree key v err s1 h
    unfold append at h
    cases hg : s tree key with
    | none =>
      rw [hg] at h
      simp at h
    | some lb =>
      rw [hg] at h
      cases hd : jsonDecodeList lb with
      | none =>
        simp only [hd] at h
        simp at h
        exact h.2.symm
      | some l =>
        simp only [hd] at h
        simp at h
  · intro s tree key v err s1 h
    unfold remove_item at h
    cases hg : s tree key with
    | none =>
      rw [hg] at h
      simp at h
    | some lb =>
      rw [hg] at h
      cases hd : jsonDecodeList lb with
      | none =>
        simp only [hd] at h
        simp at h
        exact h.2.symm
      | some l =>
        simp only [hd] at h
        simp at h

/-- C10 witness: the bytes `[48]` (ASCII `"0"`) stored at a key do not decode
as an encoded list, so the failing `append` and `remove_item` leave the store
exactly as it was. -/
theorem c10_error_leaves_store_unchanged_witness :
    (append (insertS emptyStore [1] [2] [48]) [1] [2] [3]).2 =
      insertS emptyStore [1] [2] [48] ∧
    (remove_item (insertS emptyStore [1] [2] [48]) [1] [2] [3]).2 =
      insertS emptyStore [1] [2] [48] :=
  ⟨c10_error_leaves_store_unchanged.1 (insertS emptyStore [1] [2] [48]) [1] [2] [3]
      SledStorageError.SerializationError _ rfl,
   c10_error_leaves_store_unchanged.2 (insertS emptyStore [1] [2] [48]) [1] [2] [3]
      SledStorageError.SerializationError _ rfl⟩

end SledStorage
